import Mathlib

/-!
Shallow embedding of the RimSharpDB reconciliation engine
(`src/tools/db_updater.py`, `src/tools/obsolete_replacements.py`,
`src/tools/replace_update.py`, `src/tools/rule_manager.py`) and proofs
about its version-comparison, merge, enrichment, pruning and
relationship-validation logic.

Python values are modelled as follows: version strings become `String`
(a possibly-`None` argument becomes `Option String`), Python tuples of
ints become `List Int`, Python's native tuple comparison becomes
`tupLt`, dicts that are mutated in place become either association
lists or functions updated by override, and code that can raise becomes
`Option`-valued with the `try/except` fallback applied at the caller.
Python's `int(str)` parser and `str.isdigit` are modelled over ASCII
digits (the inputs the repository handles are ASCII).
-/

/-- Python comparison `a < b` on tuples of integers: lexicographic, and a
proper prefix is smaller than any extension. -/
def tupLt : List Int → List Int → Bool
  | [], [] => false
  | [], _ :: _ => true
  | _ :: _, [] => false
  | a :: as, b :: bs => if a < b then true else if b < a then false else tupLt as bs

/-- One step of Python's `max` accumulator: keep the current value unless the
next one is strictly greater. -/
def tupMax (acc next : List Int) : List Int :=
  if tupLt acc next then next else acc

/-- Whitespace stripping done by Python's `int(str)` before parsing. -/
def stripSpaces (l : List Char) : List Char :=
  ((l.dropWhile Char.isWhitespace).reverse.dropWhile Char.isWhitespace).reverse

/-- After the first digit of a Python integer literal: digits, with single
underscores allowed only between digits. -/
def udTail : List Char → Bool
  | [] => true
  | '_' :: [] => false
  | '_' :: c :: cs => c.isDigit && udTail cs
  | c :: cs => c.isDigit && udTail cs

/-- Digit run accepted by Python's `int(str)` (underscore group separators). -/
def underscoreDigits : List Char → Bool
  | [] => false
  | c :: cs => c.isDigit && udTail cs

/-- Numeric value of a digit run (underscores skipped). -/
def digitsVal (l : List Char) : Int :=
  (l.filter (fun c => c != '_')).foldl (fun a c => a * 10 + (Int.ofNat (c.toNat - '0'.toNat))) 0

/-- Model of Python `int(s)` on one segment: strip whitespace, optional sign,
then a digit run; `none` models `ValueError`. -/
def pyIntChars (l : List Char) : Option Int :=
  match stripSpaces l with
  | '+' :: rest => if underscoreDigits rest then some (digitsVal rest) else none
  | '-' :: rest => if underscoreDigits rest then some (-(digitsVal rest)) else none
  | rest => if underscoreDigits rest then some (digitsVal rest) else none

/-- Model of Python `s.split('.')` at the character level; always non-empty,
`"".split('.') == ['']`. -/
def splitDot : List Char → List (List Char)
  | [] => [[]]
  | c :: rest =>
    if c = '.' then [] :: splitDot rest
    else
      match splitDot rest with
      | p :: ps => (c :: p) :: ps
      | [] => [[c]]

/-- Model of Python `tuple(map(int, parts))`: `none` if any segment raises. -/
def parseParts : List (List Char) → Option (List Int)
  | [] => some []
  | p :: ps =>
    match pyIntChars p, parseParts ps with
    | some k, some ks => some (k :: ks)
    | _, _ => none

namespace DbUpdater

/-- `db_updater.get_version_key`: `tuple(map(int, version_str.split('.')))`
with `(0,)` on `ValueError`/`AttributeError` (the latter models a `None`
argument). -/
def get_version_key (x : Option String) : List Int :=
  match x with
  | none => [0]
  | some s =>
    match parseParts (splitDot s.toList) with
    | some ks => ks
    | none => [0]

/-- Key of the first element of Python `max(l, key=get_version_key)` (ties keep
the earlier element, whose key equals the accumulator's). Callers guarantee a
non-empty argument; `[0]` stands in for the unreachable empty case. -/
def max_version_key (l : List String) : List Int :=
  match l.map (fun v => get_version_key (some v)) with
  | [] => [0]
  | k :: ks => ks.foldl tupMax k

/-- `sorted(..., key=get_version_key)` ordering relation: `x` may stay before
`y` iff `key x <= key y` under tuple comparison. -/
def keyLe (x y : String) : Bool :=
  !(tupLt (get_version_key (some y)) (get_version_key (some x)))

/-- Stable insertion used by the model of Python's `sorted`. -/
def insertByKey (x : String) : List String → List String
  | [] => [x]
  | y :: ys => if keyLe x y then x :: y :: ys else y :: insertByKey x ys

/-- Model of `sorted(l, key=get_version_key)`: a stable sort by `keyLe`. -/
def sortByKey : List String → List String
  | [] => []
  | x :: xs => insertByKey x (sortByKey xs)

/-- Adjacent-pairs check that a list is in ascending `get_version_key` order. -/
def sortedByKey : List String → Bool
  | [] => true
  | [_] => true
  | x :: y :: rest => keyLe x y && sortedByKey (y :: rest)

/-- Model of `VERSION_REGEX.match(tag)` for `^\d+\.\d+(\.\d+)?$`: two or
three non-empty all-digit segments. -/
def matchesVersionChars (l : List Char) : Bool :=
  let parts := splitDot l
  (parts.length == 2 || parts.length == 3) &&
    parts.all (fun p => !p.isEmpty && p.all Char.isDigit)

/-- `re.match` with a `$`-terminated pattern also accepts a single trailing
newline; strip it before the structural check. -/
def matchesVersion (s : String) : Bool :=
  let l := s.toList
  matchesVersionChars (if l.getLast? == some '\n' then l.dropLast else l)

/-- `filter_api_version_tags`: keep tags matching the version regex, sorted
by `get_version_key`. -/
def filter_api_version_tags (tags : List String) : List String :=
  sortByKey (tags.filter matchesVersion)

end DbUpdater

/-- One record of `db.json` (`mods[package_id][steam_id]`). `published` is
absent on freshly inserted records and set only by the enrichment applier. -/
structure ModRecord where
  name : String
  authors : String
  versions : List String
  published : Option Bool
deriving DecidableEq

namespace DbUpdater

/-- The parsed payload of one mod's `About.xml` as handed to the merge loop
(`local_mod_info`): display fields plus the observed version strings. -/
structure LocalObservation where
  name : String
  authors : String
  versions : List String
deriving DecidableEq

/-- What the merge loop did for one scanned mod. -/
inductive MergeOutcome
  | inserted
  | skippedEmptyLocal
  | populated
  | replaced
  | unchanged
deriving DecidableEq

/-- The existing-record branch of the merge loop (`async_worker`, the block
guarded by `pkg_id in mods_db and steam_id_str in mods_db[pkg_id]`):
Python sets become deduplicated lists, set size becomes the deduplicated
length, and set inequality becomes `setEq ... = false`. -/
def setEq (a b : List String) : Bool :=
  a.all (fun x => b.elem x) && b.all (fun x => a.elem x)

def mergeExisting (r : ModRecord) (obsVersions : List String) :
    MergeOutcome × ModRecord :=
  let localSet := obsVersions.dedup
  let dbSet := r.versions.dedup
  if localSet.isEmpty then (.skippedEmptyLocal, r)
  else if dbSet.isEmpty then (.populated, { r with versions := sortByKey localSet })
  else
    let maxLocal := max_version_key localSet
    let maxDb := max_version_key dbSet
    let shouldReplace :=
      tupLt maxDb maxLocal ||
        (maxLocal == maxDb && decide (localSet.length < dbSet.length))
    if shouldReplace && !(setEq localSet dbSet) then
      (.replaced, { r with versions := sortByKey localSet })
    else (.unchanged, r)

/-- The in-memory `db.json` mods mapping, as a two-level lookup (stable
package id, then steam id). -/
def ModDatabase := String → String → Option ModRecord

/-- Result of one iteration of the scan loop for one observed mod. -/
structure MergeResult where
  db : ModDatabase
  outcome : MergeOutcome
  queued : Bool

/-- One iteration of the scan loop of `async_worker` for the observation of
`(pkg, sid)`: mutate the existing record, or insert the observation verbatim
(no `published` key) and queue it for remote enrichment. -/
def mergeStep (db : ModDatabase) (pkg sid : String) (obs : LocalObservation) :
    MergeResult :=
  match db pkg sid with
  | some r =>
    let res := mergeExisting r obs.versions
    ⟨fun p s => if p = pkg ∧ s = sid then some res.2 else db p s, res.1, false⟩
  | none =>
    ⟨fun p s =>
        if p = pkg ∧ s = sid then
          some ⟨obs.name, obs.authors, obs.versions, none⟩
        else db p s,
      .inserted, true⟩

/-- A successful remote lookup as seen by the applier (`api_result`). -/
structure FetchResult where
  tags : List String
deriving DecidableEq

/-- The enrichment applier (`async_worker`'s `as_completed` loop body):
remote result present → versions replaced wholesale by the filtered sorted
tags and `published := true`; absent → versions untouched, `published :=
false`. -/
def applyEnrichment (r : ModRecord) (result : Option FetchResult) : ModRecord :=
  match result with
  | some res =>
    { r with versions := filter_api_version_tags res.tags, published := some true }
  | none => { r with published := some false }

/-- The empty database (`{"mods": {}}`). -/
def dbEmpty : ModDatabase := fun _ _ => none

end DbUpdater

namespace ReplaceUpdate

/-- `replace_update.get_version_key`: same body as `db_updater`'s. -/
def get_version_key (x : Option String) : List Int :=
  match x with
  | none => [0]
  | some s =>
    match parseParts (splitDot s.toList) with
    | some ks => ks
    | none => [0]

end ReplaceUpdate

namespace ObsoleteReplacements

/-- `obsolete_replacements.get_version_key`: `None`/non-string and empty
input give `(0,)`; otherwise the string is first cleaned to digits and dots,
an empty cleaning gives `(0,)`, and the cleaned string is parsed with the
same `tuple(map(int, ...))` fallback. -/
def get_version_key (x : Option String) : List Int :=
  match x with
  | none => [0]
  | some s =>
    if s.isEmpty then [0]
    else
      let cleaned := s.toList.filter (fun c => c.isDigit || c == '.')
      if cleaned.isEmpty then [0]
      else
        match parseParts (splitDot cleaned) with
        | some ks => ks
        | none => [0]

/-- `get_max_version_key_from_list`: `(0,)` on an empty list, otherwise
Python `max` over the parsed keys (first maximal key wins ties). -/
def get_max_version_key_from_list (versions : List String) : List Int :=
  match versions.map (fun v => get_version_key (some v)) with
  | [] => [0]
  | k :: ks => ks.foldl tupMax k

/-- The parsed `db.json` as iterated by the pruner: package ids in file
order, each holding steam-id/record pairs in file order. -/
def DbData := List (String × List (String × ModRecord))

/-- All `(steam_id, record)` pairs in the order `create_steam_id_lookup`
iterates them. -/
def flatPairs (db : DbData) : List (String × ModRecord) :=
  (db.map Prod.snd).flatten

/-- `create_steam_id_lookup`: dict built by successive assignment, so the
last occurrence of a steam id wins. -/
def create_steam_id_lookup (db : DbData) : String → Option ModRecord :=
  fun s => ((flatPairs db).reverse.find? (fun p => p.1 == s)).map Prod.snd

/-- One entry of `replacements.json`'s `mods` mapping. The three fields the
pruner reads are `Option`-valued (`dict.get`); the rest are carried along
unchanged. -/
structure ReplEntry where
  Author : String
  ModId : String
  ModName : Option String
  Versions : String
  SteamId : String
  ReplacementAuthor : String
  ReplacementModId : String
  ReplacementName : Option String
  ReplacementSteamId : Option String
  ReplacementVersions : String
deriving DecidableEq

/-- One element of the pruner's `obsolete_mods_info` report. -/
structure Diagnostic where
  id : String
  name : String
  reason : String
deriving DecidableEq

/-- `".".join(map(str, key))`. -/
def joinKey (ks : List Int) : String :=
  String.intercalate "." (ks.map toString)

/-- The removal condition of `maintain_replacements_file` for one entry:
a truthy `ReplacementSteamId`, both sides found in the flat lookup, and the
original's max version key strictly greater than the replacement's. -/
def entryObsolete (idx : String → Option ModRecord) (origId : String)
    (e : ReplEntry) : Bool :=
  match e.ReplacementSteamId with
  | none => false
  | some rid =>
    if rid.isEmpty then false
    else
      match idx origId, idx rid with
      | some o, some r =>
        tupLt (get_max_version_key_from_list r.versions)
          (get_max_version_key_from_list o.versions)
      | _, _ => false

/-- The diagnostic recorded for a removed entry, quoting both max version
strings. Only evaluated on entries satisfying `entryObsolete`, where both
lookups succeed. -/
def mkDiag (idx : String → Option ModRecord) (origId : String)
    (e : ReplEntry) : Diagnostic :=
  let origMax :=
    match idx origId with
    | some o => get_max_version_key_from_list o.versions
    | none => [0]
  let replMax :=
    match e.ReplacementSteamId.bind idx with
    | some r => get_max_version_key_from_list r.versions
    | none => [0]
  { id := origId
    name := e.ModName.getD "N/A"
    reason := "Original version (" ++ joinKey origMax ++ ") > Replacement version ("
      ++ joinKey replMax ++ ")." }

/-- The analysis loop of `maintain_replacements_file`: partition the mapping
(in file order) into kept entries, unchanged, and removal diagnostics. -/
def prune_replacements (idx : String → Option ModRecord) :
    List (String × ReplEntry) → List (String × ReplEntry) × List Diagnostic
  | [] => ([], [])
  | (oid, e) :: rest =>
    let res := prune_replacements idx rest
    if entryObsolete idx oid e then (res.1, mkDiag idx oid e :: res.2)
    else ((oid, e) :: res.1, res.2)

/-- Python `str.isdigit` (ASCII digits), non-empty. -/
def pyIsDigit (s : String) : Bool :=
  !s.isEmpty && s.toList.all Char.isDigit

/-- The `ModDatabase` well-formedness invariant: every remote (steam) id key
is a digit string. -/
def digitKeysOk (db : DbData) : Bool :=
  db.all (fun p => p.2.all (fun q => pyIsDigit q.1))

end ObsoleteReplacements

/-- Model of Python `str.lower()` (ASCII): lower-case every character. -/
def pyLower (s : String) : String :=
  ⟨s.data.map Char.toLower⟩

namespace RuleManager

/-- The three mutually-exclusive relationship buckets
(`all_list_types = ["loadBefore", "loadAfter", "incompatibilities"]`). -/
inductive ListType
  | loadBefore
  | loadAfter
  | incompatibilities
deriving DecidableEq

/-- The name the warning dialog uses for a bucket. -/
def ListType.typeName : ListType → String
  | .loadBefore => "loadBefore"
  | .loadAfter => "loadAfter"
  | .incompatibilities => "incompatibilities"

/-- The package-id column (`values[0]`) of the three rule trees of the
owning mod's editor, in tree order. -/
structure RuleTrees where
  loadBefore : List String
  loadAfter : List String
  incompatibilities : List String
deriving DecidableEq

def bucketOf (d : RuleTrees) : ListType → List String
  | .loadBefore => d.loadBefore
  | .loadAfter => d.loadAfter
  | .incompatibilities => d.incompatibilities

/-- Iteration order of `all_list_types` with the current list skipped. -/
def otherLists (cur : ListType) : List ListType :=
  [ListType.loadBefore, ListType.loadAfter, ListType.incompatibilities].filter
    (fun lt => lt ≠ cur)

/-- Result of `_validate_dependency_conflict`: accepted, rejected as a
duplicate in the target bucket, or rejected naming the conflicting bucket. -/
inductive ValidationResult
  | ok
  | duplicate
  | conflict (bucket : ListType)
deriving DecidableEq

/-- `_validate_dependency_conflict(package_id, current_list_type, is_edit,
old_package_id)`. Entries are compared lower-cased; callers always pass an
already lower-cased candidate and (on edits) the lower-cased previous id. -/
def validateConflict (d : RuleTrees) (pid : String) (cur : ListType)
    (isEdit : Bool) (oldPid : Option String) : ValidationResult :=
  if (bucketOf d cur).any
      (fun e => pyLower e == pid && !(isEdit && oldPid == some pid)) then
    .duplicate
  else
    match (otherLists cur).find?
        (fun lt => (bucketOf d lt).any (fun e => pyLower e == pid)) with
    | some lt => .conflict lt
    | none => .ok

end RuleManager

/-! ### Concrete fixtures used by witnesses -/

/-- A two-record database used as a concrete evaluation point. -/
def sampleDb : ObsoleteReplacements.DbData :=
  [("pkg.alpha",
    [("200", ⟨"Orig", "A", ["1.5"], some true⟩),
     ("201", ⟨"Repl", "B", ["1.4"], some true⟩)])]

/-- A replacement entry pointing original `"200"` at replacement `"201"`. -/
def sampleEntry : ObsoleteReplacements.ReplEntry :=
  ⟨"A", "m.orig", some "Orig", "1.5", "200", "B", "m.repl", some "Repl",
    some "201", "1.4"⟩

/-- A one-record two-level mod database. -/
def sampleModDb : DbUpdater.ModDatabase :=
  fun p s =>
    if p = "a.b" ∧ s = "111" then some ⟨"n", "a", ["1.5"], some true⟩ else none

/-! ### Order properties of `tupLt` -/

theorem tupLt_irrefl (a : List Int) : tupLt a a = false := by
  induction a with
  | nil => rfl
  | cons x xs ih => simp [tupLt, ih]

theorem tupLt_asymm {a b : List Int} (h : tupLt a b = true) : tupLt b a = false := by
  induction a generalizing b with
  | nil =>
    cases b with
    | nil => simp [tupLt] at h
    | cons y ys => rfl
  | cons x xs ih =>
    cases b with
    | nil => simp [tupLt] at h
    | cons y ys =>
      by_cases hxy : x < y
      · have hyx : ¬ y < x := by omega
        simp [tupLt, hyx, hxy]
      · by_cases hyx : y < x
        · simp [tupLt, hxy, hyx] at h
        · have hrec := ih (b := ys) (by simpa [tupLt, hxy, hyx] using h)
          simp [tupLt, hxy, hyx, hrec]

namespace DbUpdater

theorem keyLe_total (x y : String) (h : keyLe x y = false) : keyLe y x = true := by
  unfold keyLe at h ⊢
  simp only [Bool.not_eq_false'] at h
  simp [tupLt_asymm h]

theorem sortedByKey_insert (x : String) (l : List String)
    (h : sortedByKey l = true) : sortedByKey (insertByKey x l) = true := by
  induction l with
  | nil => simp [insertByKey, sortedByKey]
  | cons y ys ih =>
    by_cases hxy : keyLe x y = true
    · simpa [insertByKey, hxy, sortedByKey] using h
    · have hxy' : keyLe x y = false := by simpa using hxy
      have hyx : keyLe y x = true := keyLe_total _ _ hxy'
      cases ys with
      | nil => simp [insertByKey, hxy', sortedByKey, hyx]
      | cons z zs =>
        rw [show sortedByKey (y :: z :: zs) = (keyLe y z && sortedByKey (z :: zs))
          from rfl] at h
        obtain ⟨hyz, hs⟩ : keyLe y z = true ∧ sortedByKey (z :: zs) = true := by
          simpa using h
        by_cases hxz : keyLe x z = true
        · simp [insertByKey, hxy', hxz, sortedByKey, hyx, hyz, hs]
        · have hxz' : keyLe x z = false := by simpa using hxz
          have hstep : insertByKey x (z :: zs) = z :: insertByKey x zs := by
            simp [insertByKey, hxz']
          have h2 : sortedByKey (z :: insertByKey x zs) = true := by
            have h3 := ih hs
            rwa [hstep] at h3
          have : insertByKey x (y :: z :: zs) = y :: z :: insertByKey x zs := by
            simp [insertByKey, hxy', hxz']
          rw [this]
          cases hrest : insertByKey x zs with
          | nil => simp [sortedByKey, hyz]
          | cons w ws =>
            rw [hrest] at h2
            simp [sortedByKey] at h2
            simp [sortedByKey, hyz, h2]

theorem sortedByKey_sortByKey (l : List String) :
    sortedByKey (sortByKey l) = true := by
  induction l with
  | nil => rfl
  | cons x xs ih => exact sortedByKey_insert x (sortByKey xs) ih

end DbUpdater

/-! ### Structure of `splitDot` and `parseParts` -/

theorem splitDot_cons (c : Char) (rest : List Char) :
    splitDot (c :: rest) =
      if c = '.' then [] :: splitDot rest
      else
        match splitDot rest with
        | p :: ps => (c :: p) :: ps
        | [] => [[c]] := rfl

theorem parseParts_cons (p : List Char) (ps : List (List Char)) :
    parseParts (p :: ps) =
      match pyIntChars p, parseParts ps with
      | some k, some ks => some (k :: ks)
      | _, _ => none := rfl

theorem splitDot_ne_nil (l : List Char) : splitDot l ≠ [] := by
  cases l with
  | nil => simp [splitDot]
  | cons c rest =>
    rw [splitDot_cons]
    split
    · simp
    · split <;> simp

theorem splitDot_eq_singleton_nil {l : List Char} (h : splitDot l = [[]]) :
    l = [] := by
  cases l with
  | nil => rfl
  | cons c rest =>
    rw [splitDot_cons] at h
    split at h
    · have : splitDot rest = [] := by simpa using h
      exact absurd this (splitDot_ne_nil rest)
    · split at h <;> simp_all

theorem splitDot_getLast {l : List Char} (h : l.getLast? = some '.') :
    (splitDot l).getLast? = some [] := by
  induction l with
  | nil => simp at h
  | cons c rest ih =>
    cases rest with
    | nil =>
      have hc : c = '.' := by simpa using h
      subst hc
      rfl
    | cons d ds =>
      have h' : (d :: ds).getLast? = some '.' := by
        rwa [List.getLast?_cons_cons] at h
      have ihh := ih h'
      rw [splitDot_cons]
      split
      · obtain ⟨q, qs, hq⟩ : ∃ q qs, splitDot (d :: ds) = q :: qs := by
          cases hsd : splitDot (d :: ds) with
          | nil => exact absurd hsd (splitDot_ne_nil _)
          | cons q qs => exact ⟨q, qs, rfl⟩
        rw [hq, List.getLast?_cons_cons]
        rwa [hq] at ihh
      · cases hsd : splitDot (d :: ds) with
        | nil => exact absurd hsd (splitDot_ne_nil _)
        | cons p ps =>
          rw [hsd] at ihh
          cases ps with
          | nil =>
            have hp : p = [] := by simpa using ihh
            subst hp
            exact absurd (splitDot_eq_singleton_nil hsd) (by simp)
          | cons q qs =>
            show ((c :: p) :: q :: qs).getLast? = some []
            rw [List.getLast?_cons_cons]
            rwa [List.getLast?_cons_cons] at ihh

theorem pyIntChars_nil : pyIntChars [] = none := rfl

theorem parseParts_none_of_mem_nil {parts : List (List Char)}
    (h : [] ∈ parts) : parseParts parts = none := by
  induction parts with
  | nil => simp at h
  | cons p ps ih =>
    rcases List.mem_cons.mp h with hp | hp
    · rw [← hp, parseParts_cons, pyIntChars_nil]
    · rw [parseParts_cons, ih hp]
      cases pyIntChars p <;> rfl

theorem parseParts_some_ne_nil {p : List Char} {ps : List (List Char)}
    {ks : List Int} (h : parseParts (p :: ps) = some ks) : ks ≠ [] := by
  rw [parseParts_cons] at h
  cases hp : pyIntChars p with
  | none => rw [hp] at h; cases h
  | some k =>
    cases hps : parseParts ps with
    | none => rw [hp, hps] at h; cases h
    | some ks' =>
      rw [hp, hps] at h
      cases h
      simp

/-! ### The pruning loop is a pure filter -/

namespace ObsoleteReplacements

theorem prune_fst_eq_filter (idx : String → Option ModRecord)
    (m : List (String × ReplEntry)) :
    (prune_replacements idx m).1 =
      m.filter (fun p => !entryObsolete idx p.1 p.2) := by
  induction m with
  | nil => rfl
  | cons p rest ih =>
    obtain ⟨oid, e⟩ := p
    by_cases h : entryObsolete idx oid e = true
    · simp [prune_replacements, h, List.filter_cons, ih]
    · have h' : entryObsolete idx oid e = false := by simpa using h
      simp [prune_replacements, h', List.filter_cons, ih]

theorem prune_snd_eq_map (idx : String → Option ModRecord)
    (m : List (String × ReplEntry)) :
    (prune_replacements idx m).2 =
      (m.filter (fun p => entryObsolete idx p.1 p.2)).map
        (fun p => mkDiag idx p.1 p.2) := by
  induction m with
  | nil => rfl
  | cons p rest ih =>
    obtain ⟨oid, e⟩ := p
    by_cases h : entryObsolete idx oid e = true
    · simp [prune_replacements, h, List.filter_cons, ih]
    · have h' : entryObsolete idx oid e = false := by simpa using h
      simp [prune_replacements, h', List.filter_cons, ih]

theorem lookup_key_isDigit {db : DbData} {s : String} {r : ModRecord}
    (hd : digitKeysOk db = true) (h : create_steam_id_lookup db s = some r) :
    pyIsDigit s = true := by
  simp only [create_steam_id_lookup, Option.map_eq_some'] at h
  obtain ⟨p, hfind, -⟩ := h
  have heq : p.1 = s := by
    have := List.find?_some hfind
    simpa using this
  have hmem : p ∈ flatPairs db := by
    have := List.mem_of_find?_eq_some hfind
    simpa using this
  simp only [flatPairs, List.mem_flatten, List.mem_map] at hmem
  obtain ⟨l, ⟨q, hq, hql⟩, hpl⟩ := hmem
  simp only [digitKeysOk, List.all_eq_true] at hd
  have := hd q hq
  simp only [List.all_eq_true] at this
  have := this p (by rwa [hql])
  rwa [heq] at this

end ObsoleteReplacements

/-! ### Deduplicated set cardinality -/

namespace DbUpdater

theorem setEq_true_length {a b : List String} (h : setEq a b = true)
    (ha : a.Nodup) (hb : b.Nodup) : a.length = b.length := by
  simp only [setEq, Bool.and_eq_true, List.all_eq_true] at h
  have hab : a ⊆ b := fun x hx => by
    have := h.1 x hx
    simpa [List.elem_iff] using this
  have hba : b ⊆ a := fun x hx => by
    have := h.2 x hx
    simpa [List.elem_iff] using this
  exact Nat.le_antisymm (List.subperm_of_subset ha hab).length_le
    (List.subperm_of_subset hb hba).length_le

end DbUpdater

/-! ### Version keys are never empty tuples -/

namespace DbUpdater

theorem get_version_key_db_ne_nil (x : Option String) : get_version_key x ≠ [] := by
  cases x with
  | none => simp [get_version_key]
  | some s =>
    simp only [get_version_key]
    cases hsp : splitDot s.toList with
    | nil => exact absurd hsp (splitDot_ne_nil _)
    | cons p ps =>
      cases hp : parseParts (p :: ps) with
      | none => simp
      | some ks => simpa using parseParts_some_ne_nil hp

end DbUpdater

namespace ObsoleteReplacements

theorem get_version_key_obs_ne_nil (x : Option String) : get_version_key x ≠ [] := by
  cases x with
  | none => simp [get_version_key]
  | some s =>
    simp only [get_version_key]
    split
    · simp
    · split
      · simp
      · cases hsp : splitDot (s.toList.filter (fun c => c.isDigit || c == '.')) with
        | nil => exact absurd hsp (splitDot_ne_nil _)
        | cons p ps =>
          cases hp : parseParts (p :: ps) with
          | none => simp
          | some ks => simpa using parseParts_some_ne_nil hp

end ObsoleteReplacements

/-! ### Trailing-dot strings never parse -/

theorem getLast?_decomp {α : Type} {l : List α} {a : α}
    (h : l.getLast? = some a) : ∃ l', l = l' ++ [a] := by
  induction l with
  | nil => simp at h
  | cons x xs ih =>
    cases xs with
    | nil =>
      have : x = a := by simpa using h
      exact ⟨[], by rw [this]; rfl⟩
    | cons y ys =>
      rw [List.getLast?_cons_cons] at h
      obtain ⟨l', hl⟩ := ih h
      exact ⟨x :: l', by rw [List.cons_append, ← hl]⟩

theorem getLast?_append_singleton {α : Type} (l : List α) (a : α) :
    (l ++ [a]).getLast? = some a := by
  induction l with
  | nil => rfl
  | cons x xs ih =>
    cases xs with
    | nil => rfl
    | cons y ys =>
      show (x :: y :: (ys ++ [a])).getLast? = some a
      rw [List.getLast?_cons_cons]
      exact ih

theorem filter_getLast_dot {l : List Char} (h : l.getLast? = some '.') :
    (l.filter (fun c => c.isDigit || c == '.')).getLast? = some '.' := by
  obtain ⟨l', rfl⟩ := getLast?_decomp h
  rw [List.filter_append]
  have : List.filter (fun c => c.isDigit || c == '.') ['.'] = ['.'] := by decide
  rw [this]
  exact getLast?_append_singleton _ _

/-!
## Claim theorems
-/

/-- Claim C2: for every record queued for remote enrichment, a present lookup
result makes the applier replace the version list wholesale with the
regex-filtered, VersionKey-sorted tags and set `published` to true (e.g. tags
`["1.5","1.6","notaversion"]` yield `["1.5","1.6"]`); an absent result leaves
the locally observed version list exactly unchanged and sets `published` to
false. -/
theorem claim_C2 (r : ModRecord) (res : DbUpdater.FetchResult) :
    (DbUpdater.applyEnrichment r (some res)).versions =
        DbUpdater.filter_api_version_tags res.tags ∧
    (DbUpdater.applyEnrichment r (some res)).published = some true ∧
    (DbUpdater.applyEnrichment r none).versions = r.versions ∧
    (DbUpdater.applyEnrichment r none).published = some false ∧
    DbUpdater.filter_api_version_tags ["1.5", "1.6", "notaversion"] =
      ["1.5", "1.6"] :=
  ⟨rfl, rfl, rfl, rfl, by decide⟩

/-- Claim C4: pruning is idempotent — re-running the pruner on the kept output
of a previous run against the same database keeps every entry and removes
nothing. -/
theorem claim_C4 (db : ObsoleteReplacements.DbData)
    (m : List (String × ObsoleteReplacements.ReplEntry)) :
    (ObsoleteReplacements.prune_replacements
        (ObsoleteReplacements.create_steam_id_lookup db)
        ((ObsoleteReplacements.prune_replacements
          (ObsoleteReplacements.create_steam_id_lookup db) m).1)).1 =
      (ObsoleteReplacements.prune_replacements
        (ObsoleteReplacements.create_steam_id_lookup db) m).1 ∧
    (ObsoleteReplacements.prune_replacements
        (ObsoleteReplacements.create_steam_id_lookup db)
        ((ObsoleteReplacements.prune_replacements
          (ObsoleteReplacements.create_steam_id_lookup db) m).1)).2 = [] := by
  constructor
  · rw [ObsoleteReplacements.prune_fst_eq_filter,
      ObsoleteReplacements.prune_fst_eq_filter, List.filter_filter]
    simp only [Bool.and_self]
  · rw [ObsoleteReplacements.prune_snd_eq_map,
      ObsoleteReplacements.prune_fst_eq_filter, List.filter_filter]
    simp

/-- Claim C6 counterexample: the three `get_version_key` helpers do not all
compute the same function — `obsolete_replacements.py`'s variant first strips
characters that are neither digits nor dots, so on `"1.5a"` it returns
`(1, 5)` while `db_updater.py`'s variant raises internally and returns the
sentinel `(0,)`. -/
theorem claim_C6_counterexample :
    ¬ (ObsoleteReplacements.get_version_key (some "1.5a") =
        DbUpdater.get_version_key (some "1.5a")) ∧
    DbUpdater.get_version_key (some "1.5a") = [0] ∧
    ObsoleteReplacements.get_version_key (some "1.5a") = [1, 5] := by
  refine ⟨?_, by decide, by decide⟩
  decide

/-- Claim C6 amended: `db_updater.py`'s and `replace_update.py`'s
`get_version_key` compute the same function on every input;
`obsolete_replacements.py`'s differs (see the counterexample). -/
theorem claim_C6_amended (x : Option String) :
    DbUpdater.get_version_key x = ReplaceUpdate.get_version_key x := rfl

/-- Claim C7 counterexample: under the native tuple comparison the code uses,
`(1,5) < (1,5,0)` evaluates to TRUE, not false — a shorter key that is a
proper prefix of a longer key compares as smaller. -/
theorem claim_C7_counterexample :
    DbUpdater.get_version_key (some "1.5") = [1, 5] ∧
    DbUpdater.get_version_key (some "1.5.0") = [1, 5, 0] ∧
    tupLt [1, 5] [1, 5, 0] = true := by
  refine ⟨by decide, by decide, by decide⟩

/-- Claim C7 amended: under the version ordering the code uses, a key that is
a proper prefix of another key compares as strictly smaller; in particular the
key parsed from `"1.5"` is less than the key parsed from `"1.5.0"`. -/
theorem claim_C7_amended (a b : List Int) (hb : b ≠ []) :
    tupLt a (a ++ b) = true := by
  induction a with
  | nil =>
    cases b with
    | nil => exact absurd rfl hb
    | cons x xs => rfl
  | cons c cs ih =>
    show tupLt (c :: cs) (c :: (cs ++ b)) = true
    simp only [tupLt, lt_irrefl, if_false]
    exact ih

/-- Witness for C7's amended theorem at the claim's concrete keys. -/
theorem claim_C7_witness :
    ([0] : List Int) ≠ [] ∧ tupLt [1, 5] ([1, 5] ++ [0]) = true :=
  ⟨by decide, claim_C7_amended [1, 5] [0] (by decide)⟩

/-- Claim C5: version parsing is total — on every input (any string, the empty
string, strings with unparseable segments, strings with trailing dots, and
null) both `get_version_key` helpers return a (non-empty) tuple, and on any
input whose segments cannot be parsed into integers they return the sentinel
lowest key `(0,)`. -/
theorem claim_C5 (x : Option String) (s : String) :
    DbUpdater.get_version_key x ≠ [] ∧
    ObsoleteReplacements.get_version_key x ≠ [] ∧
    DbUpdater.get_version_key none = [0] ∧
    ObsoleteReplacements.get_version_key none = [0] ∧
    DbUpdater.get_version_key (some "") = [0] ∧
    ObsoleteReplacements.get_version_key (some "") = [0] ∧
    (parseParts (splitDot s.toList) = none →
      DbUpdater.get_version_key (some s) = [0]) ∧
    (parseParts (splitDot (s.toList.filter (fun c => c.isDigit || c == '.'))) =
        none →
      ObsoleteReplacements.get_version_key (some s) = [0]) ∧
    (s.toList.getLast? = some '.' →
      DbUpdater.get_version_key (some s) = [0] ∧
      ObsoleteReplacements.get_version_key (some s) = [0]) := by
  refine ⟨DbUpdater.get_version_key_db_ne_nil x,
    ObsoleteReplacements.get_version_key_obs_ne_nil x, rfl, rfl, by decide,
    by decide, ?_, ?_, ?_⟩
  · intro h
    simp only [DbUpdater.get_version_key]
    rw [h]
  · intro h
    simp only [ObsoleteReplacements.get_version_key]
    split
    · rfl
    · split
      · rfl
      · rw [h]
  · intro h
    constructor
    · have h1 := splitDot_getLast h
      obtain ⟨l', hl⟩ := getLast?_decomp h1
      have h2 : [] ∈ splitDot s.toList := by rw [hl]; simp
      simp only [DbUpdater.get_version_key]
      rw [parseParts_none_of_mem_nil h2]
    · have hf := filter_getLast_dot h
      have h1 := splitDot_getLast hf
      obtain ⟨l', hl⟩ := getLast?_decomp h1
      have h2 : [] ∈ splitDot (s.toList.filter (fun c => c.isDigit || c == '.')) := by
        rw [hl]; simp
      have h3 := parseParts_none_of_mem_nil h2
      simp only [ObsoleteReplacements.get_version_key]
      split
      · rfl
      · split
        · rfl
        · rw [h3]

/-- Witness for C5 at the concrete malformed input `"1..5"`. -/
theorem claim_C5_witness :
    parseParts (splitDot ("1..5".toList)) = none ∧
    DbUpdater.get_version_key (some "1..5") = [0] ∧
    ObsoleteReplacements.get_version_key (some "1..5") = [0] := by
  refine ⟨by decide, ?_, ?_⟩
  · exact (claim_C5 (some "1..5") "1..5").2.2.2.2.2.2.1 (by decide)
  · exact (claim_C5 (some "1..5") "1..5").2.2.2.2.2.2.2.1 (by decide)

/-- The existing-record merge either returns the record untouched or replaces
exactly its `versions` field with a `sortByKey` result. -/
theorem mergeExisting_snd_cases (r : ModRecord) (v : List String) :
    (DbUpdater.mergeExisting r v).2 = r ∨
      (DbUpdater.mergeExisting r v).2 =
        { r with versions := DbUpdater.sortByKey v.dedup } := by
  simp only [DbUpdater.mergeExisting]
  split
  · left; rfl
  · split
    · right; rfl
    · split
      · right; rfl
      · left; rfl

/-- Claim C8 counterexample: inserting a newly observed mod stores the
observed version list verbatim, and the failed-enrichment fallback keeps it;
with observed order `["1.5","1.4"]` the stored list is not sorted by
VersionKey, so the claimed invariant fails for those two operations. -/
theorem claim_C8_counterexample :
    (DbUpdater.mergeStep DbUpdater.dbEmpty "a.b" "111"
        ⟨"N", "A", ["1.5", "1.4"]⟩).db "a.b" "111" =
      some ⟨"N", "A", ["1.5", "1.4"], none⟩ ∧
    (DbUpdater.applyEnrichment ⟨"N", "A", ["1.5", "1.4"], none⟩ none).versions =
      ["1.5", "1.4"] ∧
    DbUpdater.sortedByKey ["1.5", "1.4"] = false := by
  refine ⟨by decide, rfl, by decide⟩

/-- Claim C8 amended: after a merge REPLACE/populate and after successful
remote enrichment the stored version list is sorted by VersionKey, and a
failed enrichment leaves the list unchanged; insertion of a newly observed
mod stores the observed list verbatim (so those two paths need not be
sorted). -/
theorem claim_C8_amended :
    (∀ (r : ModRecord) (v : List String),
      (DbUpdater.mergeExisting r v).2.versions = r.versions ∨
        DbUpdater.sortedByKey (DbUpdater.mergeExisting r v).2.versions = true) ∧
    (∀ (r : ModRecord) (res : DbUpdater.FetchResult),
      DbUpdater.sortedByKey
        (DbUpdater.applyEnrichment r (some res)).versions = true) ∧
    (∀ r : ModRecord, (DbUpdater.applyEnrichment r none).versions = r.versions) ∧
    (∀ (db : DbUpdater.ModDatabase) (pkg sid : String)
        (obs : DbUpdater.LocalObservation),
      db pkg sid = none →
        (DbUpdater.mergeStep db pkg sid obs).db pkg sid =
          some ⟨obs.name, obs.authors, obs.versions, none⟩) := by
  refine ⟨?_, ?_, fun r => rfl, ?_⟩
  · intro r v
    rcases mergeExisting_snd_cases r v with h | h
    · left; rw [h]
    · right; rw [h]
      exact DbUpdater.sortedByKey_sortByKey _
  · intro r res
    exact DbUpdater.sortedByKey_sortByKey _
  · intro db pkg sid obs h
    simp only [DbUpdater.mergeStep, h]
    simp

/-- Witness for C8's amended insertion clause on the empty database. -/
theorem claim_C8_witness :
    DbUpdater.dbEmpty "a.b" "111" = none ∧
    (DbUpdater.mergeStep DbUpdater.dbEmpty "a.b" "111"
        ⟨"N", "A", ["1.5", "1.4"]⟩).db "a.b" "111" =
      some ⟨"N", "A", ["1.5", "1.4"], none⟩ :=
  ⟨rfl, claim_C8_amended.2.2.2 DbUpdater.dbEmpty "a.b" "111"
    ⟨"N", "A", ["1.5", "1.4"]⟩ rfl⟩

/-- Claim C10 (frame property): a merge into an existing `(pkg, sid)` record
touches at most that record's `versions` field — its `name`, `authors` and
`published` fields are preserved (in particular on the populate and REPLACE
paths), and every other record of the database is left unchanged. -/
theorem claim_C10 (db : DbUpdater.ModDatabase) (pkg sid : String)
    (obs : DbUpdater.LocalObservation) (r : ModRecord)
    (h : db pkg sid = some r) :
    (DbUpdater.mergeStep db pkg sid obs).db pkg sid =
        some (DbUpdater.mergeExisting r obs.versions).2 ∧
    (DbUpdater.mergeExisting r obs.versions).2.name = r.name ∧
    (DbUpdater.mergeExisting r obs.versions).2.authors = r.authors ∧
    (DbUpdater.mergeExisting r obs.versions).2.published = r.published ∧
    ∀ p s, ¬(p = pkg ∧ s = sid) →
      (DbUpdater.mergeStep db pkg sid obs).db p s = db p s := by
  have hfields :
      (DbUpdater.mergeExisting r obs.versions).2.name = r.name ∧
      (DbUpdater.mergeExisting r obs.versions).2.authors = r.authors ∧
      (DbUpdater.mergeExisting r obs.versions).2.published = r.published := by
    rcases mergeExisting_snd_cases r obs.versions with hc | hc <;>
      rw [hc] <;> exact ⟨rfl, rfl, rfl⟩
  refine ⟨?_, hfields.1, hfields.2.1, hfields.2.2, ?_⟩
  · simp only [DbUpdater.mergeStep, h]
    simp
  · intro p s hps
    simp only [DbUpdater.mergeStep, h]
    exact if_neg hps

/-- Witness for C10 on a one-record database. -/
theorem claim_C10_witness :
    sampleModDb "a.b" "111" = some ⟨"n", "a", ["1.5"], some true⟩ ∧
    (DbUpdater.mergeStep sampleModDb "a.b" "111" ⟨"x", "y", ["1.6"]⟩).db
        "other" "2" =
      sampleModDb "other" "2" :=
  ⟨by decide,
    (claim_C10 sampleModDb "a.b" "111" ⟨"x", "y", ["1.6"]⟩
      ⟨"n", "a", ["1.5"], some true⟩ (by decide)).2.2.2.2 "other" "2" (by decide)⟩

/-- Claim C1: for an existing stored record with a non-empty version set and a
non-empty observed set for the same pair, if the two maximum VersionKeys are
equal and the observed set has strictly fewer distinct entries than the stored
set, the merge performs REPLACE and the stored version list becomes the
observed versions sorted by VersionKey. -/
theorem claim_C1 (r : ModRecord) (obsVersions : List String)
    (hl : obsVersions.dedup ≠ [])
    (hd : r.versions.dedup ≠ [])
    (hmax : DbUpdater.max_version_key obsVersions.dedup =
      DbUpdater.max_version_key r.versions.dedup)
    (hlen : obsVersions.dedup.length < r.versions.dedup.length) :
    DbUpdater.mergeExisting r obsVersions =
      (DbUpdater.MergeOutcome.replaced,
        { r with versions := DbUpdater.sortByKey obsVersions.dedup }) := by
  have h1 : obsVersions.dedup.isEmpty = false := by
    cases h : obsVersions.dedup.isEmpty
    · rfl
    · exact absurd (List.isEmpty_iff.mp h) hl
  have h2 : r.versions.dedup.isEmpty = false := by
    cases h : r.versions.dedup.isEmpty
    · rfl
    · exact absurd (List.isEmpty_iff.mp h) hd
  have hse : DbUpdater.setEq obsVersions.dedup r.versions.dedup = false := by
    cases h : DbUpdater.setEq obsVersions.dedup r.versions.dedup
    · rfl
    · have := DbUpdater.setEq_true_length h (List.nodup_dedup _)
        (List.nodup_dedup _)
      omega
  simp only [DbUpdater.mergeExisting, h1, h2, hmax, hse, tupLt_irrefl,
    beq_self_eq_true, Bool.false_or, Bool.true_and, Bool.not_false,
    Bool.and_true, decide_eq_true_eq, Bool.false_eq_true, if_false]
  rw [if_pos hlen]

/-- Witness for C1 at the spec's Scenario 3: stored `["1.4","1.5"]`,
observed `["1.5"]`. -/
theorem claim_C1_witness :
    DbUpdater.max_version_key (["1.5"] : List String).dedup =
        DbUpdater.max_version_key (["1.4", "1.5"] : List String).dedup ∧
    DbUpdater.mergeExisting ⟨"n", "a", ["1.4", "1.5"], some true⟩ ["1.5"] =
      (DbUpdater.MergeOutcome.replaced, ⟨"n", "a", ["1.5"], some true⟩) := by
  refine ⟨by decide, ?_⟩
  have h := claim_C1 ⟨"n", "a", ["1.4", "1.5"], some true⟩ ["1.5"]
    (by decide) (by decide) (by decide) (by decide)
  rw [h]
  decide

namespace ObsoleteReplacements

theorem entryObsolete_eq (idx : String → Option ModRecord) (oid : String)
    (e : ReplEntry) :
    entryObsolete idx oid e =
      match e.ReplacementSteamId with
      | none => false
      | some rid =>
        if rid.isEmpty then false
        else
          match idx oid, idx rid with
          | some o, some r =>
            tupLt (get_max_version_key_from_list r.versions)
              (get_max_version_key_from_list o.versions)
          | _, _ => false := rfl

/-- Claim C3: on a well-formed database (remote-id keys are digit strings) the
pruner removes a mapping entry iff its replacement reference is present, both
remote ids are found in the flat index, and the original's maximum VersionKey
is strictly greater than the replacement's; every other entry is kept with its
value unchanged, and each removal's diagnostic quotes both version strings. -/
theorem claim_C3 (db : DbData) (m : List (String × ReplEntry))
    (hd : digitKeysOk db = true) :
    ((prune_replacements (create_steam_id_lookup db) m).1 =
      m.filter (fun p => !entryObsolete (create_steam_id_lookup db) p.1 p.2)) ∧
    ((prune_replacements (create_steam_id_lookup db) m).2 =
      (m.filter (fun p => entryObsolete (create_steam_id_lookup db) p.1 p.2)).map
        (fun p => mkDiag (create_steam_id_lookup db) p.1 p.2)) ∧
    (∀ oid e, entryObsolete (create_steam_id_lookup db) oid e = true ↔
      ∃ rid o r, e.ReplacementSteamId = some rid ∧
        create_steam_id_lookup db oid = some o ∧
        create_steam_id_lookup db rid = some r ∧
        tupLt (get_max_version_key_from_list r.versions)
          (get_max_version_key_from_list o.versions) = true) ∧
    (∀ oid e rid o r, e.ReplacementSteamId = some rid →
      create_steam_id_lookup db oid = some o →
      create_steam_id_lookup db rid = some r →
      (mkDiag (create_steam_id_lookup db) oid e).reason =
        "Original version (" ++
          joinKey (get_max_version_key_from_list o.versions) ++
          ") > Replacement version (" ++
          joinKey (get_max_version_key_from_list r.versions) ++ ").") := by
  refine ⟨prune_fst_eq_filter _ m, prune_snd_eq_map _ m, ?_, ?_⟩
  · intro oid e
    constructor
    · intro h
      rw [entryObsolete_eq] at h
      cases hrep : e.ReplacementSteamId with
      | none => rw [hrep] at h; exact Bool.noConfusion h
      | some rid =>
        simp only [hrep] at h
        by_cases hre : rid.isEmpty = true
        · rw [if_pos hre] at h; exact Bool.noConfusion h
        · rw [if_neg hre] at h
          cases ho : create_steam_id_lookup db oid with
          | none =>
            simp only [ho] at h
            exact Bool.noConfusion h
          | some o =>
            cases hr : create_steam_id_lookup db rid with
            | none => simp only [ho, hr] at h; exact Bool.noConfusion h
            | some r =>
              simp only [ho, hr] at h
              exact ⟨rid, o, r, rfl, rfl, hr, h⟩
    · rintro ⟨rid, o, r, hrep, ho, hr, hcomp⟩
      have hdig := lookup_key_isDigit hd hr
      have hne : rid.isEmpty = false := by
        simp only [pyIsDigit, Bool.and_eq_true, Bool.not_eq_true'] at hdig
        exact hdig.1
      rw [entryObsolete_eq]
      simp only [hrep, hne, ho, hr, Bool.false_eq_true, if_false]
      exact hcomp
  · intro oid e rid o r hrep ho hr
    simp only [mkDiag, hrep, ho, hr, Option.some_bind]

/-- Witness for C3 at the spec's Scenario 5: original `"200"` with db max
`"1.5"`, replacement `"201"` with db max `"1.4"` — the entry is removed. -/
theorem claim_C3_witness :
    digitKeysOk sampleDb = true ∧
    entryObsolete (create_steam_id_lookup sampleDb) "200" sampleEntry = true :=
  ⟨by decide,
    ((claim_C3 sampleDb [("200", sampleEntry)] (by decide)).2.2.1 "200"
        sampleEntry).mpr
      ⟨"201", ⟨"Orig", "A", ["1.5"], some true⟩,
        ⟨"Repl", "B", ["1.4"], some true⟩, by decide, by decide, by decide,
        by decide⟩⟩

end ObsoleteReplacements

namespace RuleManager

/-- Claim C9: the validator (whose callers always pass a lower-cased
candidate) rejects iff the candidate already appears — compared lower-cased —
in the target bucket other than as the entry being edited (identified by its
previous id), or appears in one of the two other buckets, in which case the
rejection names a conflicting bucket that really contains it; otherwise the
candidate is accepted. -/
theorem claim_C9 (d : RuleTrees) (pid : String) (cur : ListType)
    (isEdit : Bool) (oldPid : Option String) (hlow : pyLower pid = pid) :
    (validateConflict d pid cur isEdit oldPid = .duplicate ↔
      ∃ e ∈ bucketOf d cur, pyLower e = pid ∧
        ¬(isEdit = true ∧ oldPid = some pid)) ∧
    (∀ lt, validateConflict d pid cur isEdit oldPid = .conflict lt →
      lt ≠ cur ∧ ∃ e ∈ bucketOf d lt, pyLower e = pid) ∧
    (validateConflict d pid cur isEdit oldPid = .ok ↔
      (¬ ∃ e ∈ bucketOf d cur, pyLower e = pid ∧
        ¬(isEdit = true ∧ oldPid = some pid)) ∧
      ∀ lt ∈ otherLists cur, ¬ ∃ e ∈ bucketOf d lt, pyLower e = pid) := by
  have hdupIff : (bucketOf d cur).any
      (fun e => pyLower e == pid && !(isEdit && oldPid == some pid)) = true ↔
      ∃ e ∈ bucketOf d cur, pyLower e = pid ∧
        ¬(isEdit = true ∧ oldPid = some pid) := by
    rw [List.any_eq_true]
    constructor
    · rintro ⟨e, he, hb⟩
      rw [Bool.and_eq_true] at hb
      refine ⟨e, he, by simpa using hb.1, ?_⟩
      rintro ⟨ht, hs⟩
      have hfalse := hb.2
      rw [ht, hs] at hfalse
      simp at hfalse
    · rintro ⟨e, he, h1, h2⟩
      refine ⟨e, he, ?_⟩
      rw [Bool.and_eq_true]
      refine ⟨by simpa using h1, ?_⟩
      cases hEdit : isEdit
      · simp
      · have hne : ¬ oldPid = some pid := fun hs => h2 ⟨hEdit, hs⟩
        simp [hne]
  have hanyIff : ∀ lt, ((bucketOf d lt).any (fun e => pyLower e == pid) = true ↔
      ∃ e ∈ bucketOf d lt, pyLower e = pid) := by
    intro lt
    simp [List.any_eq_true]
  simp only [validateConflict]
  split
  case isTrue hA =>
    refine ⟨iff_of_true rfl (hdupIff.mp hA), ?_, ?_⟩
    · intro lt hlt
      exact ValidationResult.noConfusion hlt
    · exact iff_of_false (fun hok => ValidationResult.noConfusion hok)
        (fun hc => hc.1 (hdupIff.mp hA))
  case isFalse hA =>
    split
    case h_1 lt0 heq =>
      have hmem := List.mem_of_find?_eq_some heq
      have hne : lt0 ≠ cur := of_decide_eq_true (List.mem_filter.mp hmem).2
      have hany := List.find?_some heq
      refine ⟨?_, ?_, ?_⟩
      · exact iff_of_false (fun h => ValidationResult.noConfusion h)
          (fun hex => hA (hdupIff.mpr hex))
      · intro lt hlt
        injection hlt with h
        subst h
        exact ⟨hne, (hanyIff lt0).mp hany⟩
      · exact iff_of_false (fun h => ValidationResult.noConfusion h)
          (fun hc => hc.2 lt0 hmem ((hanyIff lt0).mp hany))
    case h_2 heq =>
      have hnone := List.find?_eq_none.mp heq
      refine ⟨?_, ?_, ?_⟩
      · exact iff_of_false (fun h => ValidationResult.noConfusion h)
          (fun hex => hA (hdupIff.mpr hex))
      · intro lt hlt
        exact ValidationResult.noConfusion hlt
      · refine iff_of_true rfl ⟨fun hex => hA (hdupIff.mpr hex), ?_⟩
        intro lt hmem hex
        exact hnone lt hmem ((hanyIff lt).mpr hex)

/-- Witness for C9 at the spec's Scenario 6: `"x.y"` already under loadAfter
(as `"X.Y"`), candidate for incompatibilities — rejected naming loadAfter. -/
theorem claim_C9_witness :
    (pyLower "x.y" = "x.y") ∧
    (ListType.loadAfter ≠ ListType.incompatibilities ∧
      ∃ e ∈ bucketOf ⟨[], ["X.Y"], []⟩ ListType.loadAfter,
        pyLower e = "x.y") :=
  ⟨by decide,
    (claim_C9 ⟨[], ["X.Y"], []⟩ "x.y" .incompatibilities false none
        (by decide)).2.1 .loadAfter (by decide)⟩

end RuleManager
